import Mathlib

/-!
Verification development for the streaming JSONL export engine of
imessage-exporter.

The embedding follows the two source files:

- src/imessage-exporter/src/exporters/jsonl.rs
  (struct JSONL, JSONL::new, JSONL::iter_messages, JSONL::get_or_create_file)
- src/imessage-exporter/src/app/export_type.rs
  (enum ExportType, ExportType::from_cli)

External collaborators (the SQLite cursor, Config::conversation,
Config::filename, Message::gen_text, the indicatif progress bar, and the
serde_json serializer) are modelled as explicit parameters of a Config
record or, where their concrete behaviour matters to a claim and their
code is not part of this repository snapshot, as definitions marked
"Modelled from the spec".
-/

/-! ## Path model

Rust PathBuf is modelled as its list of pushed components.
PathBuf::push appends a component (the absolute-component replacement
special case of Rust is elided: all components used here are relative
names). PathBuf::set_extension rewrites the last component: the part of
the file name after its last dot is replaced by the new extension, where
a dot at position 0 does not start an extension; if the name has no dot,
a dot and the extension are appended. -/

/-- Model of a filesystem path as the list of its components. -/
abbrev PathBuf := List String

/-- Chars of a file name before its extension: everything before the last
dot, except that a dot at position 0 does not count as starting an
extension and a dotless name is its own stem. -/
def fileStem (cs : List Char) : List Char :=
  match cs.reverse.dropWhile (fun c => c ≠ '.') with
  | [] => cs
  | _ :: rest => if rest = [] then cs else rest.reverse

/-- Model of Rust set_extension applied to one file name. -/
def setExtFile (f : String) (ext : String) : String :=
  ⟨fileStem f.data ++ '.' :: ext.data⟩

/-- Model of PathBuf::set_extension: rewrite the extension of the last
component; a path with no components is unchanged. -/
def setExt (p : PathBuf) (ext : String) : PathBuf :=
  match p.reverse with
  | [] => []
  | f :: rest => rest.reverse ++ [setExtFile f ext]

/-! ## Data model -/

/-- Model of imessage_database Message restricted to the fields the
export loop reads: rowid (i32, the dedup identity) and text (the payload
produced by gen_text). The remaining fields never influence the control
flow of iter_messages and are elided. -/
structure Message where
  rowid : Int
  text : Option String
deriving DecidableEq, Repr

/-- Model of the runtime Config together with the external collaborators
reached through it in iter_messages:

- exportPath: options.export_path
- conversation: Config::conversation, resolving a message to its
  chatroom and internal unique chatroom id, or none for orphans
- filename: Config::filename, deriving a file name for a chatroom
- genText: Message::gen_text against the database, returning the message
  with its text filled in, or a table error
- getCount: Message::get_count against the database
- streamSetup: the combined outcome of Message::stream_rows and
  query_map, which fail before any row is processed -/
structure Config where
  exportPath : PathBuf
  conversation : Message → Option (String × Int)
  filename : String → String
  genText : Message → Except String Message
  getCount : Except String Nat
  streamSetup : Except String Unit

/-- Modelled from the spec: the designated orphaned-bucket name (the
constant ORPHANED of tables::table in the imessage_database crate, whose
source is not part of this snapshot; only its use in jsonl.rs is). -/
def ORPHANED : String := "orphaned"

/-- State of the JSONL exporter struct: the chatroom-id-to-path cache
(HashMap modelled as an association list with unique keys, since entries
are only ever inserted when absent) and the orphaned path. -/
structure JSONLExporter where
  files : List (Int × PathBuf)
  orphaned : PathBuf
deriving DecidableEq, Repr

/-- Association-list lookup modelling HashMap::get against the files
cache. -/
def lookupFile : List (Int × PathBuf) → Int → Option PathBuf
  | [], _ => none
  | e :: es, i => if e.1 = i then some e.2 else lookupFile es i

/-- Model of JSONL::new: an empty cache and the orphaned path built by
cloning export_path, pushing ORPHANED and setting the jsonl extension. -/
def JSONL.new (cfg : Config) : JSONLExporter :=
  { files := []
    orphaned := setExt (cfg.exportPath ++ [ORPHANED]) "jsonl" }

/-- Model of JSONL::get_or_create_file: resolve the conversation; on a
named chatroom, return the cached path for its id or derive, cache and
return a fresh one (export_path, pushed filename, jsonl extension); on
no conversation, return the orphaned path, leaving the state unchanged. -/
def getOrCreateFile (cfg : Config) (ex : JSONLExporter) (m : Message) :
    PathBuf × JSONLExporter :=
  match cfg.conversation m with
  | some (chatroom, i) =>
    match lookupFile ex.files i with
    | some p => (p, ex)
    | none =>
      let p := setExt (cfg.exportPath ++ [cfg.filename chatroom]) "jsonl"
      (p, { ex with files := ex.files ++ [(i, p)] })
  | none => (ex.orphaned, ex)

/-- Result of the statement in jsonl.rs reading
"let _ = msg.gen_text(&self.config.db)": the error of gen_text is
dropped, so a failing render leaves the message as it was. -/
def gen (cfg : Config) (m : Message) : Message :=
  match cfg.genText m with
  | .ok m1 => m1
  | .error _ => m

/-! ## Line-delimited serialization

Modelled from the spec: serde_json::to_string is an external crate. The
spec (section 4.4) requires the line-delimited renderer to produce one
self-contained JSON unit per record with standard JSON string escaping.
The model serializes the two fields of the Message model in struct
order, with serde_json's escaping rules for the text payload: quote and
backslash escaped, the named control characters b, t, n, f, r escaped
short, every other control character below 0x20 escaped as a
four-hex-digit u escape. -/

/-- Opening brace character, kept as a named character. -/
def lbrace : Char := Char.ofNat 123

/-- Closing brace character, kept as a named character. -/
def rbrace : Char := Char.ofNat 125

/-- Decimal digit character for a value below ten. -/
def digitChar (n : Nat) : Char :=
  if n = 0 then '0' else if n = 1 then '1' else if n = 2 then '2'
  else if n = 3 then '3' else if n = 4 then '4' else if n = 5 then '5'
  else if n = 6 then '6' else if n = 7 then '7' else if n = 8 then '8'
  else '9'

/-- Decimal digits of a natural number, most significant first, in front
of an accumulator; the first argument is recursion fuel, always called
with at least the number itself. -/
def natToCharsGo : Nat → Nat → List Char → List Char
  | 0, n, acc => digitChar (n % 10) :: acc
  | fuel + 1, n, acc =>
    if n < 10 then digitChar n :: acc
    else natToCharsGo fuel (n / 10) (digitChar (n % 10) :: acc)

/-- Decimal digits of a natural number. -/
def natToChars (n : Nat) : List Char := natToCharsGo n n []

/-- Decimal rendering of an integer, with a leading minus sign when
negative. -/
def intToChars : Int → List Char
  | .ofNat n => natToChars n
  | .negSucc n => '-' :: natToChars (n + 1)

/-- Lower-case hexadecimal digit character for a value below sixteen. -/
def hexDigit (n : Nat) : Char :=
  if n = 0 then '0' else if n = 1 then '1' else if n = 2 then '2'
  else if n = 3 then '3' else if n = 4 then '4' else if n = 5 then '5'
  else if n = 6 then '6' else if n = 7 then '7' else if n = 8 then '8'
  else if n = 9 then '9' else if n = 10 then 'a' else if n = 11 then 'b'
  else if n = 12 then 'c' else if n = 13 then 'd' else if n = 14 then 'e'
  else 'f'

/-- JSON escape of one character of a string payload, following
serde_json's escaping. -/
def jsonEscapeChar (c : Char) : List Char :=
  if c = '"' then ['\\', '"']
  else if c = '\\' then ['\\', '\\']
  else if c = '\n' then ['\\', 'n']
  else if c = '\r' then ['\\', 'r']
  else if c = '\t' then ['\\', 't']
  else if c.toNat = 8 then ['\\', 'b']
  else if c.toNat = 12 then ['\\', 'f']
  else if c.toNat < 32 then
    ['\\', 'u', '0', '0', hexDigit (c.toNat / 16), hexDigit (c.toNat % 16)]
  else [c]

/-- JSON escape of a string payload. -/
def jsonEscape : List Char → List Char
  | [] => []
  | c :: cs => jsonEscapeChar c ++ jsonEscape cs

/-- JSON serialization of a Message (chars), modelled from the spec as
explained above. -/
def toJsonChars (m : Message) : List Char :=
  lbrace :: ("\"rowid\":").data ++ intToChars m.rowid
    ++ ',' :: ("\"text\":").data
    ++ (match m.text with
        | none => ("null").data
        | some s => '"' :: (jsonEscape s.data ++ ['"']))
    ++ [rbrace]

/-- JSON serialization of a Message as a String. -/
def toJsonString (m : Message) : String := ⟨toJsonChars m⟩

/-- One rendered line-delimited unit: the serialized record terminated
by a single newline, as built in iter_messages by appending a newline to
to_string's output. -/
def jsonLineChars (m : Message) : List Char := toJsonChars m ++ ['\n']

/-! ## The export loop -/

/-- Observable state of one run of JSONL::iter_messages:

- ex: the exporter struct (files cache and orphaned path)
- currentRow: the current_message_row dedup variable
- processed: the current_message counter
- writes: the TXT::write_to_file calls issued, in order, as pairs of
  destination path and written string (the sink appends)
- reports: the pb.set_position calls issued, in order
- finished: whether pb.finish was called -/
structure LoopSt where
  ex : JSONLExporter
  currentRow : Int
  processed : Nat
  writes : List (PathBuf × String)
  reports : List Nat
  finished : Bool
deriving DecidableEq, Repr

/-- One iteration of the for loop of iter_messages on an extracted
message: a message whose rowid equals current_message_row only advances
the counter (the continue path, which also skips the progress push);
otherwise the dedup variable is updated, gen_text runs with its error
dropped, the serialized line is written to the routed file, the counter
advances, and every time the counter reaches a multiple of 99 its value
is pushed to the progress bar. -/
def step (cfg : Config) (st : LoopSt) (m : Message) : LoopSt :=
  if m.rowid = st.currentRow then
    { st with processed := st.processed + 1 }
  else
    let m1 := gen cfg m
    let line := toJsonString m1 ++ "\n"
    let pe := getOrCreateFile cfg st.ex m1
    let newCount := st.processed + 1
    { st with
      currentRow := m.rowid
      ex := pe.2
      writes := st.writes ++ [(pe.1, line)]
      processed := newCount
      reports :=
        if newCount % 99 = 0 then st.reports ++ [newCount] else st.reports }

/-- Loop state at the top of iter_messages: fresh exporter state,
current_message_row initialized to -1, counter at zero, no writes, no
progress pushes yet. -/
def initSt (cfg : Config) : LoopSt :=
  { ex := JSONL.new cfg
    currentRow := -1
    processed := 0
    writes := []
    reports := []
    finished := false }

/-- The for loop of iter_messages over the cursor rows: each row either
extracts to a message, which is processed by step, or fails, which
aborts the whole run with that error (the question-mark operator on
Message::extract). -/
def runRows (cfg : Config) : LoopSt → List (Except String Message) → Except String LoopSt
  | st, [] => .ok st
  | _, .error e :: _ => .error e
  | st, .ok m :: rest => runRows cfg (step cfg st m) rest

/-- The loop of iter_messages on an error-free list of messages. -/
def runPure (cfg : Config) (msgs : List Message) : LoopSt :=
  msgs.foldl (step cfg) (initSt cfg)

/-- Model of JSONL::iter_messages: get_count and the statement setup may
each abort the run before the loop; otherwise the loop runs over the
cursor rows and, on success, pb.finish is called. -/
def iterMessages (cfg : Config) (rows : List (Except String Message)) :
    Except String LoopSt :=
  match cfg.getCount with
  | .error e => .error e
  | .ok _ =>
    match cfg.streamSetup with
    | .error e => .error e
    | .ok _ =>
      (runRows cfg (initSt cfg) rows).map (fun st => { st with finished := true })

/-- The value JSONL::iter_messages actually returns: its Rust type is
Result of unit, so the trace is erased to unit on success. -/
def iterMessagesRet (cfg : Config) (rows : List (Except String Message)) :
    Except String Unit :=
  (iterMessages cfg rows).map (fun _ => ())

/-! ## Derived observation functions used to state the claims -/

/-- The dedup variable after processing a list of messages from a given
value: the rowid of the last message, or the start value for an empty
list (each iteration leaves current_message_row equal to the rowid of
the message it handled, on both branches). -/
def lastRow (cur : Int) : List Message → Int
  | [] => cur
  | m :: ms => lastRow m.rowid ms

/-- The messages the loop renders (the non-skipped ones), given the
incoming dedup value. -/
def keptMsgs (cur : Int) : List Message → List Message
  | [] => []
  | m :: ms =>
    if m.rowid = cur then keptMsgs cur ms else m :: keptMsgs m.rowid ms

/-- Exporter state after routing a list of messages, skipping adjacent
duplicates, given the incoming dedup value. -/
def annEx (cfg : Config) : JSONLExporter → Int → List Message → JSONLExporter
  | ex, _, [] => ex
  | ex, cur, m :: ms =>
    if m.rowid = cur then annEx cfg ex cur ms
    else annEx cfg (getOrCreateFile cfg ex (gen cfg m)).2 m.rowid ms

/-- Annotated write list of the loop: for every rendered message, the
message after gen_text, its resolved chatroom id (none for orphans) and
the path it was routed to. Erasing the annotation yields the actual
write trace. -/
def writesAnn (cfg : Config) : JSONLExporter → Int → List Message →
    List (Message × Option Int × PathBuf)
  | _, _, [] => []
  | ex, cur, m :: ms =>
    if m.rowid = cur then writesAnn cfg ex cur ms
    else
      let m1 := gen cfg m
      let pe := getOrCreateFile cfg ex m1
      (m1, (cfg.conversation m1).map (fun ci => ci.2), pe.1)
        :: writesAnn cfg pe.2 m.rowid ms

/-- Positions pushed to the progress bar by the loop, given the incoming
dedup value and counter: a skipped duplicate advances the counter and
pushes nothing; a rendered message advances the counter and pushes it
exactly when it is a multiple of 99. -/
def reportsCalc (cur : Int) (n : Nat) : List Message → List Nat
  | [] => []
  | m :: ms =>
    if m.rowid = cur then reportsCalc cur (n + 1) ms
    else if (n + 1) % 99 = 0 then (n + 1) :: reportsCalc m.rowid (n + 1) ms
    else reportsCalc m.rowid (n + 1) ms

/-! ## Export format selection (export_type.rs) -/

/-- Model of the ExportType enum. -/
inductive ExportType where
  | Html
  | Txt
  | Jsonl
deriving DecidableEq, Repr

/-- ASCII lower-casing of one character, modelling str::to_lowercase on
the ASCII token set the matcher compares against. -/
def charLower (c : Char) : Char :=
  if 'A' ≤ c ∧ c ≤ 'Z' then Char.ofNat (c.toNat + 32) else c

/-- ASCII lower-casing of a string. -/
def lowerStr (s : String) : String := ⟨s.data.map charLower⟩

/-- Model of ExportType::from_cli: lower-case the input and match it
against the three recognized tokens, returning none otherwise. -/
def ExportType.from_cli (platform : String) : Option ExportType :=
  let t := lowerStr platform
  if t = "txt" then some .Txt
  else if t = "html" then some .Html
  else if t = "jsonl" then some .Jsonl
  else none

/-! ## Line parsing used for the round-trip claim -/

/-- Split a character stream at every newline; the newline characters
are consumed. A stream that is a concatenation of newline-terminated
lines yields those lines followed by one empty tail. -/
def splitNL : List Char → List (List Char)
  | [] => [[]]
  | c :: cs =>
    if c = '\n' then [] :: splitNL cs
    else
      match splitNL cs with
      | [] => [[c]]
      | l :: ls => (c :: l) :: ls

/-- Consume an expected first list from a stream, returning the rest. -/
def stripPre : List Char → List Char → Option (List Char)
  | [], cs => some cs
  | _ :: _, [] => none
  | p :: ps, c :: cs => if c = p then stripPre ps cs else none

/-- Drop characters up to and including the first comma. -/
def dropThroughComma : List Char → Option (List Char)
  | [] => none
  | c :: cs => if c = ',' then some cs else dropThroughComma cs

/-- Hexadecimal value of a lower-case hex digit character. -/
def hexVal (c : Char) : Option Nat :=
  if c = '0' then some 0 else if c = '1' then some 1
  else if c = '2' then some 2 else if c = '3' then some 3
  else if c = '4' then some 4 else if c = '5' then some 5
  else if c = '6' then some 6 else if c = '7' then some 7
  else if c = '8' then some 8 else if c = '9' then some 9
  else if c = 'a' then some 10 else if c = 'b' then some 11
  else if c = 'c' then some 12 else if c = 'd' then some 13
  else if c = 'e' then some 14 else if c = 'f' then some 15
  else none

/-- Parse a JSON string body up to its closing quote, undoing the
escapes of jsonEscapeChar; returns the decoded payload and the stream
after the closing quote. -/
def parseStrBody : List Char → Option (List Char × List Char)
  | [] => none
  | c :: cs =>
    if c = '"' then some ([], cs)
    else if c = '\\' then
      match cs with
      | [] => none
      | d :: ds =>
        if d = '"' then (parseStrBody ds).map (fun br => ('"' :: br.1, br.2))
        else if d = '\\' then (parseStrBody ds).map (fun br => ('\\' :: br.1, br.2))
        else if d = 'n' then (parseStrBody ds).map (fun br => ('\n' :: br.1, br.2))
        else if d = 'r' then (parseStrBody ds).map (fun br => ('\r' :: br.1, br.2))
        else if d = 't' then (parseStrBody ds).map (fun br => ('\t' :: br.1, br.2))
        else if d = 'b' then (parseStrBody ds).map (fun br => (Char.ofNat 8 :: br.1, br.2))
        else if d = 'f' then (parseStrBody ds).map (fun br => (Char.ofNat 12 :: br.1, br.2))
        else if d = 'u' then
          match ds with
          | a :: b :: e :: g :: es =>
            match hexVal a, hexVal b, hexVal e, hexVal g with
            | some va, some vb, some ve, some vg =>
              (parseStrBody es).map
                (fun br => (Char.ofNat (((va * 16 + vb) * 16 + ve) * 16 + vg) :: br.1, br.2))
            | _, _, _, _ => none
          | _ => none
        else none
    else (parseStrBody cs).map (fun br => (c :: br.1, br.2))

/-- Parse one serialized line back to the payload of the record it was
rendered from: skip the rowid field up to the separating comma, consume
the text key, then read either the null literal or a JSON string up to
the closing brace. -/
def parseLine (cs : List Char) : Option (Option (List Char)) :=
  match dropThroughComma cs with
  | none => none
  | some cs1 =>
    match stripPre ("\"text\":").data cs1 with
    | none => none
    | some cs2 =>
      if cs2 = ("null").data ++ [rbrace] then some none
      else
        match cs2 with
        | [] => none
        | c :: cs3 =>
          if c = '"' then
            match parseStrBody cs3 with
            | none => none
            | some (body, rest) =>
              if rest = [rbrace] then some (some body) else none
          else none

/-! ## Concrete fixtures used by witnesses and counterexamples -/

/-- Config whose resolver orphans every message, with render succeeding. -/
def cfgA : Config :=
  { exportPath := ["out"]
    conversation := fun _ => none
    filename := fun c => c
    genText := fun m => .ok m
    getCount := .ok 0
    streamSetup := .ok () }

/-- Config identical to cfgA except that gen_text fails on every message. -/
def cfgF : Config :=
  { exportPath := ["out"]
    conversation := fun _ => none
    filename := fun c => c
    genText := fun _ => .error "boom"
    getCount := .ok 0
    streamSetup := .ok () }

/-- Config whose resolver sends every message to chatroom id 5. -/
def cfgC : Config :=
  { exportPath := ["out"]
    conversation := fun _ => some ("chat", 5)
    filename := fun c => c
    genText := fun m => .ok m
    getCount := .ok 0
    streamSetup := .ok () }

/-- A message with an ordinary rowid. -/
def mA : Message := { rowid := 5, text := none }

/-- A message whose rowid collides with the dedup sentinel. -/
def mNeg : Message := { rowid := -1, text := some "hi" }

/-- An exporter state already holding a cached path for chatroom id 5. -/
def exW : JSONLExporter :=
  { files := [(5, ["out", "chat.jsonl"])], orphaned := ["out", "orphaned.jsonl"] }

/-- Ninety-nine messages with pairwise distinct rowids. -/
def rows99 : List Message :=
  (List.range 99).map (fun k => { rowid := (k : Int), text := none })

theorem step_processed (cfg : Config) (st : LoopSt) (m : Message) :
    (step cfg st m).processed = st.processed + 1 := by
  unfold step
  by_cases h : m.rowid = st.currentRow <;> simp [h]

theorem step_currentRow (cfg : Config) (st : LoopSt) (m : Message) :
    (step cfg st m).currentRow = m.rowid := by
  unfold step
  by_cases h : m.rowid = st.currentRow <;> simp [h]

theorem step_finished (cfg : Config) (st : LoopSt) (m : Message) :
    (step cfg st m).finished = st.finished := by
  unfold step
  by_cases h : m.rowid = st.currentRow <;> simp [h]

theorem getOrCreateFile_orphaned (cfg : Config) (ex : JSONLExporter) (m : Message) :
    (getOrCreateFile cfg ex m).2.orphaned = ex.orphaned := by
  unfold getOrCreateFile
  rcases hconv : cfg.conversation m with _ | ⟨c, i⟩
  · simp
  · rcases hl : lookupFile ex.files i with _ | p <;> simp [hl]

theorem foldl_processed (cfg : Config) (rows : List Message) (st : LoopSt) :
    (List.foldl (step cfg) st rows).processed = st.processed + rows.length := by
  induction rows generalizing st with
  | nil => simp
  | cons m ms ih =>
    simp only [List.foldl_cons, ih, step_processed, List.length_cons]
    omega

theorem foldl_currentRow (cfg : Config) (rows : List Message) (st : LoopSt) :
    (List.foldl (step cfg) st rows).currentRow = lastRow st.currentRow rows := by
  induction rows generalizing st with
  | nil => simp [lastRow]
  | cons m ms ih =>
    simp only [List.foldl_cons, ih, step_currentRow, lastRow]

theorem foldl_finished (cfg : Config) (rows : List Message) (st : LoopSt) :
    (List.foldl (step cfg) st rows).finished = st.finished := by
  induction rows generalizing st with
  | nil => simp
  | cons m ms ih => simp only [List.foldl_cons, ih, step_finished]

theorem foldl_ex (cfg : Config) (rows : List Message) (st : LoopSt) :
    (List.foldl (step cfg) st rows).ex = annEx cfg st.ex st.currentRow rows := by
  induction rows generalizing st with
  | nil => simp [annEx]
  | cons m ms ih =>
    simp only [List.foldl_cons, ih, annEx]
    unfold step
    by_cases h : m.rowid = st.currentRow <;> simp [h]

theorem foldl_writes (cfg : Config) (rows : List Message) (st : LoopSt) :
    (List.foldl (step cfg) st rows).writes
      = st.writes ++ (writesAnn cfg st.ex st.currentRow rows).map
          (fun t => (t.2.2, toJsonString t.1 ++ "\n")) := by
  induction rows generalizing st with
  | nil => simp [writesAnn]
  | cons m ms ih =>
    simp only [List.foldl_cons, ih, writesAnn]
    unfold step
    by_cases h : m.rowid = st.currentRow <;> simp [h]

theorem foldl_reports (cfg : Config) (rows : List Message) (st : LoopSt) :
    (List.foldl (step cfg) st rows).reports
      = st.reports ++ reportsCalc st.currentRow st.processed rows := by
  induction rows generalizing st with
  | nil => simp [reportsCalc]
  | cons m ms ih =>
    simp only [List.foldl_cons, ih, reportsCalc]
    unfold step
    by_cases h : m.rowid = st.currentRow
    · simp [h]
    · by_cases h99 : (st.processed + 1) % 99 = 0 <;> simp [h, h99]

theorem runRows_pure (cfg : Config) (rows : List Message) (st : LoopSt) :
    runRows cfg st (rows.map .ok) = .ok (List.foldl (step cfg) st rows) := by
  induction rows generalizing st with
  | nil => simp [runRows]
  | cons m ms ih => simp [runRows, ih]

theorem lastRow_append (cur : Int) (xs ys : List Message) :
    lastRow cur (xs ++ ys) = lastRow (lastRow cur xs) ys := by
  induction xs generalizing cur with
  | nil => simp [lastRow]
  | cons m ms ih => simp [lastRow, ih]

theorem keptMsgs_append (cur : Int) (xs ys : List Message) :
    keptMsgs cur (xs ++ ys) = keptMsgs cur xs ++ keptMsgs (lastRow cur xs) ys := by
  induction xs generalizing cur with
  | nil => simp [keptMsgs, lastRow]
  | cons m ms ih =>
    by_cases h : m.rowid = cur
    · subst h; simp [keptMsgs, lastRow, ih]
    · simp [keptMsgs, lastRow, h, ih]

theorem annEx_append (cfg : Config) (ex : JSONLExporter) (cur : Int) (xs ys : List Message) :
    annEx cfg ex cur (xs ++ ys) = annEx cfg (annEx cfg ex cur xs) (lastRow cur xs) ys := by
  induction xs generalizing ex cur with
  | nil => simp [annEx, lastRow]
  | cons m ms ih =>
    by_cases h : m.rowid = cur
    · subst h; simp [annEx, lastRow, ih]
    · simp [annEx, lastRow, h, ih]

theorem writesAnn_append (cfg : Config) (ex : JSONLExporter) (cur : Int) (xs ys : List Message) :
    writesAnn cfg ex cur (xs ++ ys)
      = writesAnn cfg ex cur xs
        ++ writesAnn cfg (annEx cfg ex cur xs) (lastRow cur xs) ys := by
  induction xs generalizing ex cur with
  | nil => simp [writesAnn, annEx, lastRow]
  | cons m ms ih =>
    by_cases h : m.rowid = cur
    · subst h; simp [writesAnn, annEx, lastRow, ih]
    · simp [writesAnn, annEx, lastRow, h, ih]

theorem keptMsgs_skipRun (cur : Int) (ms : List Message)
    (hall : ∀ m ∈ ms, m.rowid = cur) : keptMsgs cur ms = [] := by
  induction ms with
  | nil => simp [keptMsgs]
  | cons m ms ih =>
    have hm := hall m (List.mem_cons_self m ms)
    simp only [keptMsgs, hm, if_pos rfl]
    exact ih (fun x hx => hall x (List.mem_cons_of_mem m hx))

theorem writesAnn_skipRun (cfg : Config) (ex : JSONLExporter) (cur : Int) (ms : List Message)
    (hall : ∀ m ∈ ms, m.rowid = cur) : writesAnn cfg ex cur ms = [] := by
  induction ms with
  | nil => simp [writesAnn]
  | cons m ms ih =>
    have hm := hall m (List.mem_cons_self m ms)
    simp only [writesAnn, hm, if_pos rfl]
    exact ih (fun x hx => hall x (List.mem_cons_of_mem m hx))

theorem annEx_skipRun (cfg : Config) (ex : JSONLExporter) (cur : Int) (ms : List Message)
    (hall : ∀ m ∈ ms, m.rowid = cur) : annEx cfg ex cur ms = ex := by
  induction ms with
  | nil => simp [annEx]
  | cons m ms ih =>
    have hm := hall m (List.mem_cons_self m ms)
    simp only [annEx, hm, if_pos rfl]
    exact ih (fun x hx => hall x (List.mem_cons_of_mem m hx))

theorem lookupFile_append (files l : List (Int × PathBuf)) (j : Int) :
    lookupFile (files ++ l) j
      = match lookupFile files j with
        | some p => some p
        | none => lookupFile l j := by
  induction files with
  | nil => simp [lookupFile]
  | cons e es ih =>
    by_cases h : e.1 = j <;> simp [lookupFile, h, ih]

theorem getOrCreateFile_mono (cfg : Config) (ex : JSONLExporter) (m : Message)
    (j : Int) (p : PathBuf) (h : lookupFile ex.files j = some p) :
    lookupFile (getOrCreateFile cfg ex m).2.files j = some p := by
  unfold getOrCreateFile
  rcases hconv : cfg.conversation m with _ | ⟨c, i⟩
  · simpa using h
  · rcases hl : lookupFile ex.files i with _ | q
    · simp [hl, lookupFile_append, h]
    · simpa [hl] using h

theorem getOrCreateFile_cached (cfg : Config) (ex : JSONLExporter) (m : Message)
    (c : String) (i : Int) (p : PathBuf)
    (hc : cfg.conversation m = some (c, i)) (h : lookupFile ex.files i = some p) :
    getOrCreateFile cfg ex m = (p, ex) := by
  unfold getOrCreateFile
  simp [hc, h]

theorem getOrCreateFile_fresh (cfg : Config) (ex : JSONLExporter) (m : Message)
    (c : String) (i : Int)
    (hc : cfg.conversation m = some (c, i)) (h : lookupFile ex.files i = none) :
    getOrCreateFile cfg ex m
      = (setExt (cfg.exportPath ++ [cfg.filename c]) "jsonl",
         { ex with files := ex.files ++ [(i, setExt (cfg.exportPath ++ [cfg.filename c]) "jsonl")] }) := by
  unfold getOrCreateFile
  simp [hc, h]

theorem getOrCreateFile_route (cfg : Config) (ex : JSONLExporter) (m : Message)
    (c : String) (i : Int) (hc : cfg.conversation m = some (c, i)) :
    lookupFile (getOrCreateFile cfg ex m).2.files i = some (getOrCreateFile cfg ex m).1 := by
  unfold getOrCreateFile
  rcases hl : lookupFile ex.files i with _ | q
  · simp [hc, hl, lookupFile_append, lookupFile]
  · simp [hc, hl]

theorem getOrCreateFile_domain (cfg : Config) (ex : JSONLExporter) (m : Message)
    (j : Int) (h : lookupFile (getOrCreateFile cfg ex m).2.files j ≠ none) :
    lookupFile ex.files j ≠ none
      ∨ (cfg.conversation m).map (fun ci => ci.2) = some j := by
  by_cases h0 : lookupFile ex.files j = none
  · right
    rcases hconv : cfg.conversation m with _ | ⟨c, i⟩
    · unfold getOrCreateFile at h
      rw [hconv] at h; simp at h; exact absurd h0 h
    · rcases hl : lookupFile ex.files i with _ | q
      · rw [getOrCreateFile_fresh cfg ex m c i hconv hl] at h
        simp only [lookupFile_append, h0] at h
        by_cases hij : i = j
        · simp [hconv, hij]
        · simp [lookupFile, hij] at h
      · rw [getOrCreateFile_cached cfg ex m c i q hconv hl] at h
        exact absurd h0 h
  · left; exact h0

theorem annEx_orphaned (cfg : Config) (ex : JSONLExporter) (cur : Int) (rows : List Message) :
    (annEx cfg ex cur rows).orphaned = ex.orphaned := by
  induction rows generalizing ex cur with
  | nil => simp [annEx]
  | cons m ms ih =>
    by_cases h : m.rowid = cur
    · simp [annEx, h, ih]
    · simp [annEx, h, ih, getOrCreateFile_orphaned]

theorem writesAnn_path_of_cached (cfg : Config) (rows : List Message)
    (ex : JSONLExporter) (cur : Int) (i : Int) (p : PathBuf)
    (h : lookupFile ex.files i = some p) :
    ∀ t ∈ writesAnn cfg ex cur rows, t.2.1 = some i → t.2.2 = p := by
  induction rows generalizing ex cur with
  | nil => simp [writesAnn]
  | cons m ms ih =>
    by_cases hm : m.rowid = cur
    · simp only [writesAnn, hm, if_pos rfl]
      exact ih ex cur h
    · simp only [writesAnn, if_neg hm, List.mem_cons, forall_eq_or_imp]
      refine ⟨?_, ?_⟩
      · intro hroute
        rcases hconv : cfg.conversation (gen cfg m) with _ | ⟨c, j⟩
        · simp [hconv] at hroute
        · simp only [hconv, Option.map_some', Option.some_inj] at hroute
          rw [getOrCreateFile_cached cfg ex (gen cfg m) c i p (by rw [hconv, hroute]) h]
      · intro t ht hroute
        exact ih _ _ (getOrCreateFile_mono cfg ex (gen cfg m) i p h) t ht hroute

theorem annEx_mono (cfg : Config) (rows : List Message)
    (ex : JSONLExporter) (cur : Int) (j : Int) (p : PathBuf)
    (h : lookupFile ex.files j = some p) :
    lookupFile (annEx cfg ex cur rows).files j = some p := by
  induction rows generalizing ex cur with
  | nil => simpa [annEx] using h
  | cons m ms ih =>
    by_cases hm : m.rowid = cur
    · simp only [annEx, hm, if_pos rfl]
      exact ih ex cur h
    · simp only [annEx, if_neg hm]
      exact ih _ _ (getOrCreateFile_mono cfg ex (gen cfg m) j p h)

theorem writesAnn_route_lookup (cfg : Config) (rows : List Message)
    (ex : JSONLExporter) (cur : Int) :
    ∀ t ∈ writesAnn cfg ex cur rows, ∀ i, t.2.1 = some i →
      lookupFile (annEx cfg ex cur rows).files i = some t.2.2 := by
  induction rows generalizing ex cur with
  | nil => simp [writesAnn]
  | cons m ms ih =>
    by_cases hm : m.rowid = cur
    · simp only [writesAnn, annEx, hm, if_pos rfl]
      exact ih ex cur
    · simp only [writesAnn, annEx, if_neg hm, List.mem_cons, forall_eq_or_imp]
      refine ⟨?_, ?_⟩
      · intro i hroute
        rcases hconv : cfg.conversation (gen cfg m) with _ | ⟨c, j⟩
        · simp [hconv] at hroute
        · simp only [hconv, Option.map_some', Option.some_inj] at hroute
          subst hroute
          exact annEx_mono cfg ms _ m.rowid j _
            (getOrCreateFile_route cfg ex (gen cfg m) c j hconv)
      · intro t ht i hroute
        exact ih _ _ t ht i hroute

theorem writesAnn_same_route (cfg : Config) (rows : List Message)
    (ex : JSONLExporter) (cur : Int) (i : Int) :
    ∀ t1 ∈ writesAnn cfg ex cur rows, ∀ t2 ∈ writesAnn cfg ex cur rows,
      t1.2.1 = some i → t2.2.1 = some i → t1.2.2 = t2.2.2 := by
  intro t1 ht1 t2 ht2 h1 h2
  have e1 := writesAnn_route_lookup cfg rows ex cur t1 ht1 i h1
  have e2 := writesAnn_route_lookup cfg rows ex cur t2 ht2 i h2
  rw [e1] at e2
  exact Option.some_inj.mp e2

theorem writesAnn_orphan_path (cfg : Config) (rows : List Message)
    (ex : JSONLExporter) (cur : Int) :
    ∀ t ∈ writesAnn cfg ex cur rows, t.2.1 = none → t.2.2 = ex.orphaned := by
  induction rows generalizing ex cur with
  | nil => simp [writesAnn]
  | cons m ms ih =>
    by_cases hm : m.rowid = cur
    · simp only [writesAnn, hm, if_pos rfl]
      exact ih ex cur
    · simp only [writesAnn, if_neg hm, List.mem_cons, forall_eq_or_imp]
      refine ⟨?_, ?_⟩
      · intro hroute
        rcases hconv : cfg.conversation (gen cfg m) with _ | ⟨c, j⟩
        · unfold getOrCreateFile
          simp [hconv]
        · simp [hconv] at hroute
      · intro t ht hroute
        have := ih (getOrCreateFile cfg ex (gen cfg m)).2 m.rowid t ht hroute
        rw [this, getOrCreateFile_orphaned]

theorem annEx_domain (cfg : Config) (rows : List Message)
    (ex : JSONLExporter) (cur : Int) (j : Int)
    (h : lookupFile (annEx cfg ex cur rows).files j ≠ none) :
    lookupFile ex.files j ≠ none
      ∨ ∃ m ∈ rows, (cfg.conversation (gen cfg m)).map (fun ci => ci.2) = some j := by
  induction rows generalizing ex cur with
  | nil => left; simpa [annEx] using h
  | cons m ms ih =>
    by_cases hm : m.rowid = cur
    · simp only [annEx, hm, if_pos rfl] at h
      rcases ih ex cur h with h0 | ⟨x, hx, hr⟩
      · left; exact h0
      · right; exact ⟨x, List.mem_cons_of_mem m hx, hr⟩
    · simp only [annEx, if_neg hm] at h
      rcases ih _ _ h with h0 | ⟨x, hx, hr⟩
      · rcases getOrCreateFile_domain cfg ex (gen cfg m) j h0 with h1 | h1
        · left; exact h1
        · right; exact ⟨m, List.mem_cons_self m ms, h1⟩
      · right; exact ⟨x, List.mem_cons_of_mem m hx, hr⟩

theorem reportsCalc_mem (ms : List Message) (cur : Int) (n : Nat) :
    ∀ x ∈ reportsCalc cur n ms, n < x ∧ x ≤ n + ms.length ∧ x % 99 = 0 := by
  induction ms generalizing cur n with
  | nil => simp [reportsCalc]
  | cons m ms ih =>
    intro x hx
    simp only [reportsCalc] at hx
    by_cases hm : m.rowid = cur
    · rw [if_pos hm] at hx
      rcases ih cur (n + 1) x hx with ⟨h1, h2, h3⟩
      exact ⟨by omega, by simpa [Nat.add_assoc] using by omega, h3⟩
    · rw [if_neg hm] at hx
      by_cases h99 : (n + 1) % 99 = 0
      · rw [if_pos h99] at hx
        rcases List.mem_cons.mp hx with rfl | hx'
        · exact ⟨by omega, by simp, h99⟩
        · rcases ih m.rowid (n + 1) x hx' with ⟨h1, h2, h3⟩
          exact ⟨by omega, by simp only [List.length_cons]; omega, h3⟩
      · rw [if_neg h99] at hx
        rcases ih m.rowid (n + 1) x hx with ⟨h1, h2, h3⟩
        exact ⟨by omega, by simp only [List.length_cons]; omega, h3⟩

theorem reportsCalc_pairwise (ms : List Message) (cur : Int) (n : Nat) :
    List.Pairwise (· < ·) (reportsCalc cur n ms) := by
  induction ms generalizing cur n with
  | nil => simp [reportsCalc]
  | cons m ms ih =>
    simp only [reportsCalc]
    by_cases hm : m.rowid = cur
    · rw [if_pos hm]; exact ih cur (n + 1)
    · rw [if_neg hm]
      by_cases h99 : (n + 1) % 99 = 0
      · rw [if_pos h99]
        refine List.pairwise_cons.mpr ⟨?_, ih m.rowid (n + 1)⟩
        intro x hx
        exact (reportsCalc_mem ms m.rowid (n + 1) x hx).1
      · rw [if_neg h99]; exact ih m.rowid (n + 1)

theorem reportsCalc_append (xs ys : List Message) (cur : Int) (n : Nat) :
    reportsCalc cur n (xs ++ ys)
      = reportsCalc cur n xs ++ reportsCalc (lastRow cur xs) (n + xs.length) ys := by
  induction xs generalizing cur n with
  | nil => simp [reportsCalc, lastRow]
  | cons m ms ih =>
    have hlen : n + 1 + ms.length = n + (ms.length + 1) := by omega
    simp only [List.cons_append, reportsCalc, lastRow, List.length_cons, List.append_eq]
    by_cases hm : m.rowid = cur
    · rw [if_pos hm, if_pos hm, ih, hm, hlen]
    · rw [if_neg hm, if_neg hm]
      by_cases h99 : (n + 1) % 99 = 0
      · rw [if_pos h99, if_pos h99, ih, hlen]
        simp
      · rw [if_neg h99, if_neg h99, ih, hlen]

theorem digitChar_mem (k : Nat) :
    digitChar k ∈ ['0','1','2','3','4','5','6','7','8','9'] := by
  unfold digitChar
  split <;> simp_all
  split <;> simp_all
  split <;> simp_all
  split <;> simp_all
  split <;> simp_all
  split <;> simp_all
  split <;> simp_all
  split <;> simp_all
  split <;> simp_all

theorem natToCharsGo_mem (fuel : Nat) :
    ∀ (n : Nat) (acc : List Char), ∀ c ∈ natToCharsGo fuel n acc,
      c ∈ acc ∨ c ∈ ['0','1','2','3','4','5','6','7','8','9'] := by
  induction fuel with
  | zero =>
    intro n acc c hc
    simp only [natToCharsGo, List.mem_cons] at hc
    rcases hc with rfl | hc
    · right; exact digitChar_mem (n % 10)
    · left; exact hc
  | succ fuel ih =>
    intro n acc c hc
    simp only [natToCharsGo] at hc
    by_cases hn : n < 10
    · rw [if_pos hn] at hc
      rcases List.mem_cons.mp hc with rfl | hc
      · right; exact digitChar_mem n
      · left; exact hc
    · rw [if_neg hn] at hc
      rcases ih (n / 10) (digitChar (n % 10) :: acc) c hc with h | h
      · rcases List.mem_cons.mp h with rfl | h
        · right; exact digitChar_mem (n % 10)
        · left; exact h
      · right; exact h

theorem intToChars_mem (i : Int) :
    ∀ c ∈ intToChars i, c ∈ ['-','0','1','2','3','4','5','6','7','8','9'] := by
  intro c hc
  rcases i with n | n
  · simp only [intToChars, natToChars] at hc
    rcases natToCharsGo_mem n n [] c hc with h | h
    · simp at h
    · simpa using Or.inr h
  · simp only [intToChars, natToChars, List.mem_cons] at hc
    rcases hc with rfl | hc
    · simp
    · rcases natToCharsGo_mem (n + 1) (n + 1) [] c hc with h | h
      · simp at h
      · simpa using Or.inr h

theorem intToChars_not_comma_nl (i : Int) :
    ∀ c ∈ intToChars i, c ≠ ',' ∧ c ≠ '\n' := by
  intro c hc
  have := intToChars_mem i c hc
  fin_cases this <;> exact ⟨by decide, by decide⟩

theorem hexDigit_ne (k : Nat) (hk : k < 16) : hexDigit k ≠ '\n' := by
  have : ∀ j, j < 16 → hexDigit j ≠ '\n' := by decide
  exact this k hk

theorem jsonEscapeChar_no_nl (c : Char) : '\n' ∉ jsonEscapeChar c := by
  unfold jsonEscapeChar
  by_cases h1 : c = '"'
  · simp [h1]
  by_cases h2 : c = '\\'
  · simp [h1, h2]
  by_cases h3 : c = '\n'
  · simp [h1, h2, h3]
  by_cases h4 : c = '\r'
  · simp [h1, h2, h3, h4]
  by_cases h5 : c = '\t'
  · simp [h1, h2, h3, h4, h5]
  by_cases h6 : c.toNat = 8
  · simp [h1, h2, h3, h4, h5, h6]
  by_cases h7 : c.toNat = 12
  · simp [h1, h2, h3, h4, h5, h6, h7]
  by_cases h8 : c.toNat < 32
  · simp only [h1, h2, h3, h4, h5, h6, h7, h8, if_neg, if_pos, if_false, if_true]
    simp only [List.mem_cons, List.not_mem_nil, or_false]
    push_neg
    refine ⟨by decide, by decide, by decide, by decide, ?_, ?_⟩
    · exact fun h => hexDigit_ne (c.toNat / 16) (by omega) h.symm
    · exact fun h => hexDigit_ne (c.toNat % 16) (by omega) h.symm
  · simp only [h1, h2, h3, h4, h5, h6, h7, h8, if_neg, if_false]
    simp only [List.mem_cons, List.not_mem_nil, or_false]
    exact fun h => h3 h.symm

theorem jsonEscape_no_nl (s : List Char) : '\n' ∉ jsonEscape s := by
  induction s with
  | nil => simp [jsonEscape]
  | cons c cs ih =>
    simp only [jsonEscape, List.mem_append]
    rintro (h | h)
    · exact jsonEscapeChar_no_nl c h
    · exact ih h

theorem toJsonChars_no_nl (m : Message) : '\n' ∉ toJsonChars m := by
  simp only [toJsonChars, List.mem_cons, List.mem_append]
  push_neg
  refine ⟨⟨⟨⟨by decide, ?_⟩, by decide⟩, ?_⟩, by decide⟩
  · exact fun h => (intToChars_not_comma_nl m.rowid '\n' h).2 rfl
  · rcases m.text with _ | s
    · decide
    · simp only [List.mem_cons, List.mem_append]
      push_neg
      exact ⟨by decide, jsonEscape_no_nl s.data, by decide⟩

theorem stripPre_append (xs ys : List Char) : stripPre xs (xs ++ ys) = some ys := by
  induction xs with
  | nil => simp [stripPre]
  | cons c cs ih => simp [stripPre, ih]

theorem dropThroughComma_append (xs ys : List Char) (h : ',' ∉ xs) :
    dropThroughComma (xs ++ ',' :: ys) = some ys := by
  induction xs with
  | nil => simp [dropThroughComma]
  | cons c cs ih =>
    have hc : c ≠ ',' := fun hh => h (hh ▸ List.mem_cons_self c cs)
    simp only [List.cons_append, dropThroughComma, if_neg (fun hh => hc hh)]
    exact ih (fun hh => h (List.mem_cons_of_mem c hh))

theorem psb_quote (rest : List Char) : parseStrBody ('"' :: rest) = some ([], rest) := by
  rw [parseStrBody.eq_def]
  simp

theorem psb_esc2 (d out : Char) (rest : List Char)
    (h : (d = '"' ∧ out = '"') ∨ (d = '\\' ∧ out = '\\') ∨ (d = 'n' ∧ out = '\n')
      ∨ (d = 'r' ∧ out = '\r') ∨ (d = 't' ∧ out = '\t')
      ∨ (d = 'b' ∧ out = Char.ofNat 8) ∨ (d = 'f' ∧ out = Char.ofNat 12)) :
    parseStrBody ('\\' :: d :: rest)
      = (parseStrBody rest).map (fun br => (out :: br.1, br.2)) := by
  rcases h with ⟨rfl, rfl⟩ | ⟨rfl, rfl⟩ | ⟨rfl, rfl⟩ | ⟨rfl, rfl⟩ | ⟨rfl, rfl⟩ | ⟨rfl, rfl⟩
    | ⟨rfl, rfl⟩ <;> (rw [parseStrBody.eq_def]; simp)

theorem psb_esc_u (a b e g : Char) (va vb ve vg : Nat) (rest : List Char)
    (ha : hexVal a = some va) (hb : hexVal b = some vb) (he : hexVal e = some ve)
    (hg : hexVal g = some vg) :
    parseStrBody ('\\' :: 'u' :: a :: b :: e :: g :: rest)
      = (parseStrBody rest).map
          (fun br => (Char.ofNat (((va * 16 + vb) * 16 + ve) * 16 + vg) :: br.1, br.2)) := by
  rw [parseStrBody.eq_def]
  simp [ha, hb, he, hg]

theorem psb_plain (c : Char) (rest : List Char) (h1 : ¬ c = '"') (h2 : ¬ c = '\\') :
    parseStrBody (c :: rest) = (parseStrBody rest).map (fun br => (c :: br.1, br.2)) := by
  rw [parseStrBody.eq_def]
  simp [h1, h2]

theorem hexVal_hexDigit (j : Nat) (hj : j < 16) : hexVal (hexDigit j) = some j := by
  have : ∀ k, k < 16 → hexVal (hexDigit k) = some k := by decide
  exact this j hj

theorem parseStrBody_escape (s rest : List Char) :
    parseStrBody (jsonEscape s ++ '"' :: rest) = some (s, rest) := by
  induction s with
  | nil => simpa [jsonEscape] using psb_quote rest
  | cons c cs ih =>
    have hstep : jsonEscape (c :: cs) = jsonEscapeChar c ++ jsonEscape cs := rfl
    rw [hstep, List.append_assoc]
    unfold jsonEscapeChar
    by_cases h1 : c = '"'
    · subst h1
      simp only [if_pos rfl, if_true, ite_true, List.cons_append, List.nil_append]
      rw [psb_esc2 '"' '"' _ (Or.inl ⟨rfl, rfl⟩), ih]
      rfl
    by_cases h2 : c = '\\'
    · subst h2
      simp only [if_neg h1, if_pos rfl, if_true, ite_true, List.cons_append, List.nil_append]
      rw [psb_esc2 '\\' '\\' _ (Or.inr (Or.inl ⟨rfl, rfl⟩)), ih]
      rfl
    by_cases h3 : c = '\n'
    · subst h3
      simp only [if_neg h1, if_neg h2, if_pos rfl, if_true, ite_true, List.cons_append, List.nil_append]
      rw [psb_esc2 'n' '\n' _ (Or.inr (Or.inr (Or.inl ⟨rfl, rfl⟩))), ih]
      rfl
    by_cases h4 : c = '\r'
    · subst h4
      simp only [if_neg h1, if_neg h2, if_neg h3, if_pos rfl, if_true, ite_true, List.cons_append,
        List.nil_append]
      rw [psb_esc2 'r' '\r' _ (Or.inr (Or.inr (Or.inr (Or.inl ⟨rfl, rfl⟩)))), ih]
      rfl
    by_cases h5 : c = '\t'
    · subst h5
      simp only [if_neg h1, if_neg h2, if_neg h3, if_neg h4, if_pos rfl, if_true, ite_true, List.cons_append,
        List.nil_append]
      rw [psb_esc2 't' '\t' _ (Or.inr (Or.inr (Or.inr (Or.inr (Or.inl ⟨rfl, rfl⟩))))), ih]
      rfl
    by_cases h6 : c.toNat = 8
    · have hc : Char.ofNat 8 = c := by rw [← h6, Char.ofNat_toNat]
      simp only [if_neg h1, if_neg h2, if_neg h3, if_neg h4, if_neg h5, if_pos h6, if_true, ite_true,
        List.cons_append, List.nil_append]
      rw [psb_esc2 'b' (Char.ofNat 8) _
        (Or.inr (Or.inr (Or.inr (Or.inr (Or.inr (Or.inl ⟨rfl, rfl⟩)))))), ih, hc]
      rfl
    by_cases h7 : c.toNat = 12
    · have hc : Char.ofNat 12 = c := by rw [← h7, Char.ofNat_toNat]
      simp only [if_neg h1, if_neg h2, if_neg h3, if_neg h4, if_neg h5, if_neg h6,
        if_pos h7, if_true, ite_true, List.cons_append, List.nil_append]
      rw [psb_esc2 'f' (Char.ofNat 12) _
        (Or.inr (Or.inr (Or.inr (Or.inr (Or.inr (Or.inr ⟨rfl, rfl⟩)))))), ih, hc]
      rfl
    by_cases h8 : c.toNat < 32
    · simp only [if_neg h1, if_neg h2, if_neg h3, if_neg h4, if_neg h5, if_neg h6,
        if_neg h7, if_pos h8, if_true, ite_true, List.cons_append, List.nil_append]
      rw [psb_esc_u '0' '0' (hexDigit (c.toNat / 16)) (hexDigit (c.toNat % 16))
        0 0 (c.toNat / 16) (c.toNat % 16) _ (by decide) (by decide)
        (hexVal_hexDigit _ (by omega)) (hexVal_hexDigit _ (by omega)), ih]
      have hval : ((0 * 16 + 0) * 16 + c.toNat / 16) * 16 + c.toNat % 16 = c.toNat := by
        omega
      rw [hval, Char.ofNat_toNat]
      rfl
    · simp only [if_neg h1, if_neg h2, if_neg h3, if_neg h4, if_neg h5, if_neg h6,
        if_neg h7, if_neg h8, List.cons_append, List.nil_append]
      rw [psb_plain c _ h1 h2, ih]
      rfl

theorem splitNL_line (l rest : List Char) (h : '\n' ∉ l) :
    splitNL (l ++ '\n' :: rest) = l :: splitNL rest := by
  induction l with
  | nil => simp [splitNL]
  | cons c l ih =>
    have hc : ¬ c = '\n' := fun hh => h (hh ▸ List.mem_cons_self c l)
    have ih' := ih (fun hh => h (List.mem_cons_of_mem c hh))
    simp only [List.cons_append, splitNL, if_neg hc, List.append_eq, ih']

theorem splitNL_flatten (lines : List (List Char)) (h : ∀ l ∈ lines, '\n' ∉ l) :
    splitNL ((lines.map (fun l => l ++ ['\n'])).flatten) = lines ++ [[]] := by
  induction lines with
  | nil => simp [splitNL]
  | cons l ls ih =>
    have hl := h l (List.mem_cons_self l ls)
    have ih' := ih (fun x hx => h x (List.mem_cons_of_mem l hx))
    simp only [List.map_cons, List.flatten_cons, List.append_assoc, List.singleton_append]
    rw [splitNL_line l _ hl, ih']
    simp

theorem parseLine_render (m : Message) :
    parseLine (toJsonChars m) = some (m.text.map (fun s => s.data)) := by
  have hshape : toJsonChars m
      = (lbrace :: ("\"rowid\":").data ++ intToChars m.rowid)
        ++ ',' :: (("\"text\":").data
          ++ ((match m.text with
               | none => ("null").data
               | some s => '"' :: (jsonEscape s.data ++ ['"'])) ++ [rbrace])) := by
    simp [toJsonChars, List.append_assoc]
  have hnc : ',' ∉ (lbrace :: ("\"rowid\":").data ++ intToChars m.rowid) := by
    simp only [List.mem_cons, List.mem_append]
    push_neg
    refine ⟨⟨by decide, by decide⟩, ?_⟩
    exact fun hh => (intToChars_not_comma_nl m.rowid ',' hh).1 rfl
  unfold parseLine
  rw [hshape, dropThroughComma_append _ _ hnc]
  simp only [stripPre_append]
  have hnull : ("null").data = ['n','u','l','l'] := rfl
  rcases m.text with _ | s
  · simp
  · have hne : ('"' :: (jsonEscape s.data ++ ['"']) ++ [rbrace])
        ≠ (("null").data ++ [rbrace]) := by
      rw [hnull]
      simp only [List.cons_append, List.append_assoc]
      intro hh
      injection hh with h1 h2
      exact absurd h1 (by decide)
    simp only [Option.map_some']
    rw [if_neg hne]
    simp only [List.cons_append, List.append_assoc, List.singleton_append,
      List.nil_append, if_true, ite_true]
    rw [parseStrBody_escape s.data [rbrace]]
    simp


theorem lastRow_all (r : Int) (ms : List Message) (h : ∀ m ∈ ms, m.rowid = r) :
    lastRow r ms = r := by
  induction ms generalizing r with
  | nil => rfl
  | cons m ms ih =>
    have hm := h m (List.mem_cons_self m ms)
    simp only [lastRow, hm]
    exact ih r (fun x hx => h x (List.mem_cons_of_mem m hx))

/-- Claim C1, counterexample to the unamended statement: the input
[mNeg, mNeg] is a run of two adjacent records with identical identity,
yet zero of them (not exactly one) are rendered and written, because the
run's identity -1 coincides with the dedup sentinel at the start of the
sequence; the processed counter still advances by one per record. -/
theorem dedup_adjacent_run_cex :
    (runPure cfgA [mNeg, mNeg]).writes = []
    ∧ (runPure cfgA [mNeg, mNeg]).processed = 2 := by decide

/-- Claim C1 (amended): for every run of adjacent records d :: ds sharing
one identity, placed between pre and post, provided the dedup state
entering the run (the identity of the last record of pre, or the
sentinel -1 for an empty pre) differs from the run's identity: exactly
the first record of the run is kept (so exactly one is rendered and
written and the other k-1 are skipped with no render and no sink write),
the whole run's sink writes equal those of the same input with the k-1
duplicates removed, and the processed counter still advances by one per
record, duplicates included. With ds = [] this also shows a record whose
identity differs from its immediate predecessor is always rendered and
written, so non-adjacent repeats are never deduplicated. -/
theorem dedup_adjacent_run (cfg : Config) (pre post ds : List Message) (d : Message)
    (hds : ∀ m ∈ ds, m.rowid = d.rowid)
    (hfresh : lastRow (-1) pre ≠ d.rowid) :
    keptMsgs (-1) (pre ++ (d :: ds) ++ post)
      = keptMsgs (-1) pre ++ d :: keptMsgs d.rowid post
    ∧ (runPure cfg (pre ++ (d :: ds) ++ post)).writes
        = (runPure cfg (pre ++ [d] ++ post)).writes
    ∧ (runPure cfg (pre ++ (d :: ds) ++ post)).processed
        = pre.length + (1 + ds.length) + post.length := by
  have hne : ¬ d.rowid = lastRow (-1) pre := fun hh => hfresh hh.symm
  have hlast : lastRow (lastRow (-1) pre) (d :: ds) = d.rowid := by
    simp only [lastRow]
    exact lastRow_all d.rowid ds hds
  have hlast1 : lastRow (lastRow (-1) pre) [d] = d.rowid := by
    simp [lastRow]
  have hkept : keptMsgs (lastRow (-1) pre) (d :: ds) = [d] := by
    simp only [keptMsgs, if_neg hne]
    rw [keptMsgs_skipRun d.rowid ds hds]
  have hannrun : annEx cfg (annEx cfg (JSONL.new cfg) (-1) pre) (lastRow (-1) pre) (d :: ds)
      = annEx cfg (annEx cfg (JSONL.new cfg) (-1) pre) (lastRow (-1) pre) [d] := by
    simp only [annEx, if_neg hne]
    exact annEx_skipRun cfg _ d.rowid ds hds
  have hannw : writesAnn cfg (annEx cfg (JSONL.new cfg) (-1) pre) (lastRow (-1) pre) (d :: ds)
      = writesAnn cfg (annEx cfg (JSONL.new cfg) (-1) pre) (lastRow (-1) pre) [d] := by
    simp only [writesAnn, if_neg hne]
    rw [writesAnn_skipRun cfg _ d.rowid ds hds]
  have hL : writesAnn cfg (JSONL.new cfg) (-1) ((pre ++ (d :: ds)) ++ post)
      = writesAnn cfg (JSONL.new cfg) (-1) ((pre ++ [d]) ++ post) := by
    rw [writesAnn_append cfg (JSONL.new cfg) (-1) (pre ++ (d :: ds)) post,
      writesAnn_append cfg (JSONL.new cfg) (-1) pre (d :: ds),
      writesAnn_append cfg (JSONL.new cfg) (-1) (pre ++ [d]) post,
      writesAnn_append cfg (JSONL.new cfg) (-1) pre [d],
      annEx_append cfg (JSONL.new cfg) (-1) pre (d :: ds),
      annEx_append cfg (JSONL.new cfg) (-1) pre [d],
      lastRow_append (-1) pre (d :: ds), lastRow_append (-1) pre [d],
      hannrun, hannw, hlast, hlast1]
  refine ⟨?_, ?_, ?_⟩
  · rw [keptMsgs_append (-1) (pre ++ (d :: ds)) post,
      keptMsgs_append (-1) pre (d :: ds), hkept,
      lastRow_append (-1) pre (d :: ds), hlast]
    simp
  · simp only [runPure]
    rw [foldl_writes, foldl_writes]
    have h1 : (initSt cfg).ex = JSONL.new cfg := rfl
    have h2 : (initSt cfg).currentRow = -1 := rfl
    rw [h1, h2, hL]
  · simp only [runPure]
    rw [foldl_processed]
    have h3 : (initSt cfg).processed = 0 := rfl
    rw [h3]
    simp
    omega

/-- Claim C1 witness: the amended theorem applied to the concrete run
[mA, mA] with empty pre and post. -/
theorem dedup_adjacent_run_witness :
    keptMsgs (-1) ([] ++ (mA :: [mA]) ++ [])
      = keptMsgs (-1) [] ++ mA :: keptMsgs mA.rowid []
    ∧ (runPure cfgA ([] ++ (mA :: [mA]) ++ [])).writes
        = (runPure cfgA ([] ++ [mA] ++ [])).writes
    ∧ (runPure cfgA ([] ++ (mA :: [mA]) ++ [])).processed
        = List.length ([] : List Message) + (1 + List.length [mA])
          + List.length ([] : List Message) :=
  dedup_adjacent_run cfgA [] [] [mA] mA (by decide) (by decide)

/-- Claim C2, counterexample to the unamended statement: running the
exporter with a renderer that fails on every record produces exactly the
same trace (writes, counters, progress) and the same successful result
as running it with a renderer that succeeds, so the failure, though
non-fatal, is neither counted nor reported anywhere; moreover the
failing record is not skipped: its un-rendered serialization is still
written to its sink. -/
theorem render_failure_unobserved_cex :
    iterMessages cfgF [Except.ok mA] = iterMessages cfgA [Except.ok mA]
    ∧ iterMessagesRet cfgF [Except.ok mA] = Except.ok ()
    ∧ (runPure cfgF [mA]).writes
        = [((JSONL.new cfgF).orphaned, toJsonString mA ++ "\n")] :=
  ⟨rfl, rfl, by decide⟩

/-- Claim C2 (amended): a gen_text failure on a record is non-fatal and
silently ignored: the record is still serialized in its un-rendered form
and written to its routed sink, the counter advances, the loop continues
over the remaining records, and the run of iter_messages still returns
plain success; no count or report of the failure is produced. -/
theorem render_failure_nonfatal (cfg : Config) (st : LoopSt) (m : Message) (e : String)
    (hfail : cfg.genText m = .error e) (hfresh : ¬ m.rowid = st.currentRow) :
    (step cfg st m).writes
      = st.writes ++ [((getOrCreateFile cfg st.ex m).1, toJsonString m ++ "\n")]
    ∧ (step cfg st m).processed = st.processed + 1
    ∧ (∀ rows : List Message,
        runRows cfg st (Except.ok m :: rows.map Except.ok)
          = Except.ok (List.foldl (step cfg) (step cfg st m) rows))
    ∧ (∀ rows : List Message, ∀ n : Nat,
        cfg.getCount = .ok n → cfg.streamSetup = .ok () →
        iterMessagesRet cfg (Except.ok m :: rows.map Except.ok) = Except.ok ()) := by
  have hgen : gen cfg m = m := by simp [gen, hfail]
  have hcont : ∀ rows : List Message,
      runRows cfg st (Except.ok m :: rows.map Except.ok)
        = Except.ok (List.foldl (step cfg) (step cfg st m) rows) := by
    intro rows
    rw [show runRows cfg st (Except.ok m :: rows.map Except.ok)
        = runRows cfg (step cfg st m) (rows.map Except.ok) from rfl]
    exact runRows_pure cfg rows (step cfg st m)
  refine ⟨?_, step_processed cfg st m, hcont, ?_⟩
  · unfold step
    rw [if_neg hfresh]
    simp [hgen]
  · intro rows n hc hs
    unfold iterMessagesRet iterMessages
    rw [hc, hs]
    rw [show runRows cfg (initSt cfg) (Except.ok m :: rows.map Except.ok)
        = runRows cfg (step cfg (initSt cfg) m) (rows.map Except.ok) from rfl,
      runRows_pure]
    rfl

/-- Claim C2 witness: the amended theorem applied to cfgF, whose
renderer always fails, on the single record mA. -/
theorem render_failure_nonfatal_witness :
    (step cfgF (initSt cfgF) mA).writes
      = (initSt cfgF).writes
        ++ [((getOrCreateFile cfgF (initSt cfgF).ex mA).1, toJsonString mA ++ "\n")]
    ∧ (step cfgF (initSt cfgF) mA).processed = (initSt cfgF).processed + 1
    ∧ runRows cfgF (initSt cfgF) (Except.ok mA :: ([] : List Message).map Except.ok)
        = Except.ok (List.foldl (step cfgF) (step cfgF (initSt cfgF) mA) [])
    ∧ iterMessagesRet cfgF (Except.ok mA :: ([] : List Message).map Except.ok)
        = Except.ok () := by
  have h := render_failure_nonfatal cfgF (initSt cfgF) mA "boom" rfl (by decide)
  exact ⟨h.1, h.2.1, h.2.2.1 [], h.2.2.2 [] 0 rfl rfl⟩

/-- Claim C10: the dedup sentinel is the concrete integer -1, so an
input whose first record has rowid -1 skips that record as a duplicate
even though no record precedes it: the loop state is exactly the state
of the remaining rows with only the counter advanced, and a one-record
run of such a record writes nothing while counting one record. -/
theorem sentinel_first_record_skipped (cfg : Config) (m : Message)
    (rest : List (Except String Message)) (h : m.rowid = -1) :
    runRows cfg (initSt cfg) (Except.ok m :: rest)
      = runRows cfg { initSt cfg with processed := 1 } rest
    ∧ (runPure cfg [m]).writes = [] ∧ (runPure cfg [m]).processed = 1 := by
  have hstep : step cfg (initSt cfg) m = { initSt cfg with processed := 1 } := by
    unfold step
    rw [if_pos (by rw [h]; rfl)]
    rfl
  refine ⟨?_, ?_, ?_⟩
  · rw [show runRows cfg (initSt cfg) (Except.ok m :: rest)
        = runRows cfg (step cfg (initSt cfg) m) rest from rfl, hstep]
  · rw [show runPure cfg [m] = step cfg (initSt cfg) m from rfl, hstep]
    rfl
  · rw [show runPure cfg [m] = step cfg (initSt cfg) m from rfl, hstep]

/-- Claim C10 witness: the theorem applied to mNeg, whose rowid is -1. -/
theorem sentinel_first_record_skipped_witness :
    runRows cfgA (initSt cfgA) [Except.ok mNeg]
      = runRows cfgA { initSt cfgA with processed := 1 } []
    ∧ (runPure cfgA [mNeg]).writes = [] ∧ (runPure cfgA [mNeg]).processed = 1 :=
  sentinel_first_record_skipped cfgA mNeg [] rfl

/-- Claim C3: the destination path of a chatroom is derived exactly once,
on the first record routed to it, and cached; a request for an id already
cached returns the cached path with the state unchanged; any two writes
of a run annotated with the same resolved chatroom id go to the same
path; the write trace of a run is the erasure of its annotated write
list; and the cache holds an entry only for ids some record of the run
resolved to. -/
theorem sink_cache_spec (cfg : Config) :
    (∀ ex m c i p, cfg.conversation m = some (c, i) → lookupFile ex.files i = some p →
        getOrCreateFile cfg ex m = (p, ex))
    ∧ (∀ ex m c i, cfg.conversation m = some (c, i) → lookupFile ex.files i = none →
        getOrCreateFile cfg ex m
          = (setExt (cfg.exportPath ++ [cfg.filename c]) "jsonl",
             { ex with files :=
                ex.files ++ [(i, setExt (cfg.exportPath ++ [cfg.filename c]) "jsonl")] }))
    ∧ (∀ rows i, ∀ t1 ∈ writesAnn cfg (JSONL.new cfg) (-1) rows,
        ∀ t2 ∈ writesAnn cfg (JSONL.new cfg) (-1) rows,
        t1.2.1 = some i → t2.2.1 = some i → t1.2.2 = t2.2.2)
    ∧ (∀ rows, (runPure cfg rows).writes
        = (writesAnn cfg (JSONL.new cfg) (-1) rows).map
            (fun t => (t.2.2, toJsonString t.1 ++ "\n")))
    ∧ (∀ rows i, lookupFile (runPure cfg rows).ex.files i ≠ none →
        ∃ m ∈ rows, (cfg.conversation (gen cfg m)).map (fun ci => ci.2) = some i) := by
  refine ⟨?_, ?_, ?_, ?_, ?_⟩
  · intro ex m c i p hc hp
    exact getOrCreateFile_cached cfg ex m c i p hc hp
  · intro ex m c i hc hp
    exact getOrCreateFile_fresh cfg ex m c i hc hp
  · intro rows i t1 ht1 t2 ht2 h1 h2
    exact writesAnn_same_route cfg rows (JSONL.new cfg) (-1) i t1 ht1 t2 ht2 h1 h2
  · intro rows
    simp only [runPure]
    rw [foldl_writes]
    rfl
  · intro rows i hi
    simp only [runPure] at hi
    rw [foldl_ex] at hi
    have h1 : (initSt cfg).ex = JSONL.new cfg := rfl
    have h2 : (initSt cfg).currentRow = -1 := rfl
    rw [h1, h2] at hi
    rcases annEx_domain cfg rows (JSONL.new cfg) (-1) i hi with h0 | h0
    · exact absurd rfl h0
    · exact h0

/-- Claim C3 witness: the cached-hit clause applied to a state already
holding a path for chatroom id 5. -/
theorem sink_cache_spec_witness :
    getOrCreateFile cfgC exW mA = (["out", "chat.jsonl"], exW) :=
  (sink_cache_spec cfgC).1 exW mA "chat" 5 ["out", "chat.jsonl"] rfl (by decide)

/-- Claim C4: the orphaned path is fixed at construction as the export
root joined with the orphaned name and the jsonl extension; a record
whose resolver yields no group is routed to that path with the state
unchanged (so no second orphaned destination can be created); the
orphaned path never changes during a run; and every orphan-annotated
write of a run goes to that single path. -/
theorem orphan_sink_spec (cfg : Config) :
    (JSONL.new cfg).orphaned = setExt (cfg.exportPath ++ [ORPHANED]) "jsonl"
    ∧ (∀ ex m, cfg.conversation m = none → getOrCreateFile cfg ex m = (ex.orphaned, ex))
    ∧ (∀ rows, (runPure cfg rows).ex.orphaned = (JSONL.new cfg).orphaned)
    ∧ (∀ rows, ∀ t ∈ writesAnn cfg (JSONL.new cfg) (-1) rows,
        t.2.1 = none → t.2.2 = (JSONL.new cfg).orphaned) := by
  refine ⟨rfl, ?_, ?_, ?_⟩
  · intro ex m hc
    unfold getOrCreateFile
    rw [hc]
  · intro rows
    simp only [runPure]
    rw [foldl_ex]
    have h1 : (initSt cfg).ex = JSONL.new cfg := rfl
    rw [h1, annEx_orphaned]
  · intro rows t ht hr
    exact writesAnn_orphan_path cfg rows (JSONL.new cfg) (-1) t ht hr

/-- Claim C4 witness: the orphan clause applied to cfgA, whose resolver
orphans every record. -/
theorem orphan_sink_spec_witness :
    getOrCreateFile cfgA exW mA = (exW.orphaned, exW) :=
  (orphan_sink_spec cfgA).2.1 exW mA rfl

/-- Claim C5: format resolution is case-insensitive (inputs equal up to
ASCII case resolve alike) and total: inputs lowering to txt, html or
jsonl yield the corresponding variant, every other input (the empty
string included) yields none, never a default variant. -/
theorem from_cli_spec :
    (∀ s t : String, s.data.map charLower = t.data.map charLower →
        ExportType.from_cli s = ExportType.from_cli t)
    ∧ (∀ s : String, lowerStr s = "txt" → ExportType.from_cli s = some ExportType.Txt)
    ∧ (∀ s : String, lowerStr s = "html" → ExportType.from_cli s = some ExportType.Html)
    ∧ (∀ s : String, lowerStr s = "jsonl" → ExportType.from_cli s = some ExportType.Jsonl)
    ∧ (∀ s : String, lowerStr s ≠ "txt" → lowerStr s ≠ "html" → lowerStr s ≠ "jsonl" →
        ExportType.from_cli s = none) := by
  refine ⟨?_, ?_, ?_, ?_, ?_⟩
  · intro s t h
    have hl : lowerStr s = lowerStr t := congrArg String.mk h
    unfold ExportType.from_cli
    rw [hl]
  · intro s h
    unfold ExportType.from_cli
    rw [h]
    decide
  · intro s h
    unfold ExportType.from_cli
    rw [h]
    decide
  · intro s h
    unfold ExportType.from_cli
    rw [h]
    decide
  · intro s h1 h2 h3
    unfold ExportType.from_cli
    rw [if_neg h1, if_neg h2, if_neg h3]

/-- Claim C5 witness: the theorem applied to the concrete tokens JsOnL,
pdf and the empty string. -/
theorem from_cli_spec_witness :
    ExportType.from_cli "JsOnL" = some ExportType.Jsonl
    ∧ ExportType.from_cli "pdf" = none
    ∧ ExportType.from_cli "" = none := by
  have h := from_cli_spec
  exact ⟨h.2.2.2.1 "JsOnL" (by decide),
    h.2.2.2.2 "pdf" (by decide) (by decide) (by decide),
    h.2.2.2.2 "" (by decide) (by decide) (by decide)⟩

/-- Claim C6, counterexample to the unamended statement: two runs with
different processed and skipped-duplicate counts return the identical
bare unit success value, so the run's successful result carries no
summary of counts at all. -/
theorem summary_absent_cex :
    iterMessagesRet cfgA [Except.ok mA] = Except.ok ()
    ∧ iterMessagesRet cfgA [Except.ok mA, Except.ok mA] = Except.ok ()
    ∧ (runPure cfgA [mA]).processed ≠ (runPure cfgA [mA, mA]).processed := by
  refine ⟨rfl, rfl, by decide⟩

/-- Claim C6 (amended): on cursor exhaustion of an error-free row
stream, the run returns a success carrying only unit, with the progress
display finalized; no processed, skipped-duplicate or failed-render
counts are part of the result. -/
theorem run_result_unit (cfg : Config) (rows : List Message) (n : Nat)
    (hc : cfg.getCount = .ok n) (hs : cfg.streamSetup = .ok ()) :
    iterMessagesRet cfg (rows.map Except.ok) = Except.ok ()
    ∧ (iterMessages cfg (rows.map Except.ok)).map (fun st => st.finished)
        = Except.ok true := by
  unfold iterMessagesRet iterMessages
  rw [hc, hs, runRows_pure]
  exact ⟨rfl, rfl⟩

/-- Claim C6 witness: the amended theorem applied to cfgA on one row. -/
theorem run_result_unit_witness :
    iterMessagesRet cfgA ([mA].map Except.ok) = Except.ok ()
    ∧ (iterMessages cfgA ([mA].map Except.ok)).map (fun st => st.finished)
        = Except.ok true :=
  run_result_unit cfgA [mA] 0 rfl rfl

set_option maxRecDepth 40000 in
/-- Claim C7, counterexample to the unamended statement: on 99 copies of
the same record the counter reaches 99 at a record skipped as a
duplicate, and no position at all is pushed to the progress bar, though
the claim requires the 99th processed record to push whether rendered or
skipped. -/
theorem progress_skip_no_push_cex :
    (runPure cfgA (List.replicate 99 mA)).processed = 99
    ∧ (runPure cfgA (List.replicate 99 mA)).reports = [] := by decide

theorem step_reports_skip (cfg : Config) (st : LoopSt) (m : Message)
    (h : m.rowid = st.currentRow) : (step cfg st m).reports = st.reports := by
  unfold step
  rw [if_pos h]

theorem step_reports_push (cfg : Config) (st : LoopSt) (m : Message)
    (h : ¬ m.rowid = st.currentRow) :
    (step cfg st m).reports
      = st.reports ++ (if (st.processed + 1) % 99 = 0 then [st.processed + 1] else []) := by
  unfold step
  rw [if_neg h]
  by_cases h99 : (st.processed + 1) % 99 = 0
  · rw [if_pos h99]
    simp [h99]
  · rw [if_neg h99]
    simp [h99]

/-- Claim C7 (amended): the processed counter advances by exactly one
per record pulled; every pushed position is a multiple of 99; a record
skipped as a duplicate never pushes, even when it is the 99th; and a
rendered record pushes the current count exactly when that count is a
multiple of 99. -/
theorem progress_push_spec (cfg : Config) (rows : List Message) :
    (runPure cfg rows).processed = rows.length
    ∧ (∀ x ∈ (runPure cfg rows).reports, x % 99 = 0)
    ∧ (∀ pre m, m.rowid = lastRow (-1) pre →
        (runPure cfg (pre ++ [m])).reports = (runPure cfg pre).reports)
    ∧ (∀ pre m, m.rowid ≠ lastRow (-1) pre →
        (runPure cfg (pre ++ [m])).reports
          = (runPure cfg pre).reports
            ++ (if (pre.length + 1) % 99 = 0 then [pre.length + 1] else [])) := by
  have hinit0 : (initSt cfg).processed = 0 := rfl
  have hinitR : (initSt cfg).reports = [] := rfl
  have hinitC : (initSt cfg).currentRow = -1 := rfl
  refine ⟨?_, ?_, ?_, ?_⟩
  · simp only [runPure]
    rw [foldl_processed, hinit0]
    omega
  · intro x hx
    simp only [runPure] at hx
    rw [foldl_reports, hinitR, hinitC, hinit0] at hx
    simp only [List.nil_append] at hx
    exact (reportsCalc_mem rows (-1) 0 x hx).2.2
  · intro pre m hm
    simp only [runPure]
    rw [List.foldl_append]
    simp only [List.foldl_cons, List.foldl_nil]
    rw [step_reports_skip]
    rw [foldl_currentRow, hinitC]
    exact hm
  · intro pre m hm
    simp only [runPure]
    rw [List.foldl_append]
    simp only [List.foldl_cons, List.foldl_nil]
    rw [step_reports_push cfg (List.foldl (step cfg) (initSt cfg) pre) m
      (by rw [foldl_currentRow, hinitC]; exact hm)]
    rw [foldl_processed, hinit0]
    simp only [Nat.zero_add]

/-- Claim C7 witness: the skip clause applied to a duplicate record
appended after [mA]. -/
theorem progress_push_spec_witness :
    (runPure cfgA ([mA] ++ [mA])).reports = (runPure cfgA [mA]).reports :=
  (progress_push_spec cfgA []).2.2.1 [mA] mA (by decide)

/-- Claim C8, counterexample to the unamended statement: a one-record
run ends with processed count 1 but no reported position at all, so the
final reported position does not equal the processed count. -/
theorem final_report_cex :
    (runPure cfgA [mA]).reports.getLast? = none
    ∧ (runPure cfgA [mA]).processed = 1 := by decide

/-- Claim C8 (amended): the sequence of positions pushed to the progress
bar over a run is strictly increasing (in particular non-decreasing),
and every pushed position is at most the final processed count; the
final pushed position need not equal the processed count. -/
theorem reports_monotone_bounded (cfg : Config) (rows : List Message) :
    List.Pairwise (· < ·) (runPure cfg rows).reports
    ∧ (∀ x ∈ (runPure cfg rows).reports, x ≤ (runPure cfg rows).processed) := by
  have hinit0 : (initSt cfg).processed = 0 := rfl
  have hinitR : (initSt cfg).reports = [] := rfl
  have hinitC : (initSt cfg).currentRow = -1 := rfl
  have hrep : (runPure cfg rows).reports = reportsCalc (-1) 0 rows := by
    simp only [runPure]
    rw [foldl_reports, hinitR, hinitC, hinit0, List.nil_append]
  have hproc : (runPure cfg rows).processed = rows.length := by
    simp only [runPure]
    rw [foldl_processed, hinit0]
    omega
  refine ⟨?_, ?_⟩
  · rw [hrep]
    exact reportsCalc_pairwise rows (-1) 0
  · intro x hx
    rw [hrep] at hx
    rw [hproc]
    have := (reportsCalc_mem rows (-1) 0 x hx).2.1
    omega


set_option maxRecDepth 80000 in
/-- Claim C8 witness: the bound clause applied to the position 99
reported during the 99-distinct-record run rows99. -/
theorem reports_monotone_bounded_witness :
    (99 : Nat) ≤ (runPure cfgA rows99).processed :=
  (reports_monotone_bounded cfgA rows99).2 99 (by decide)

/-- Claim C9: every rendered record is its serialized form terminated by
exactly one newline and the serialized form contains no unescaped
newline character; consequently splitting the concatenation of the
rendered units of any record sequence at newlines returns exactly the
serialized units in write order, and parsing each unit back recovers the
record's payload content. -/
theorem jsonl_roundtrip :
    (∀ m : Message, '\n' ∉ toJsonChars m ∧ jsonLineChars m = toJsonChars m ++ ['\n'])
    ∧ (∀ m : Message, toJsonString m ++ "\n" = ⟨jsonLineChars m⟩)
    ∧ (∀ msgs : List Message,
        splitNL ((msgs.map jsonLineChars).flatten) = msgs.map toJsonChars ++ [[]])
    ∧ (∀ m : Message, parseLine (toJsonChars m) = some (m.text.map (fun s => s.data))) := by
  refine ⟨fun m => ⟨toJsonChars_no_nl m, rfl⟩, fun m => rfl, ?_, parseLine_render⟩
  intro msgs
  have hmaps : msgs.map jsonLineChars
      = (msgs.map toJsonChars).map (fun l => l ++ ['\n']) := by
    rw [List.map_map]
    rfl
  rw [hmaps, splitNL_flatten (msgs.map toJsonChars)]
  intro l hl
  rcases List.mem_map.mp hl with ⟨m, _, rfl⟩
  exact toJsonChars_no_nl m

/-- Claim C9 witness: the parse clause applied to the concrete record
mNeg, whose payload is the string hi. -/
theorem jsonl_roundtrip_witness :
    parseLine (toJsonChars mNeg) = some (mNeg.text.map (fun s => s.data)) :=
  jsonl_roundtrip.2.2.2 mNeg
